import Mathlib

/-!
Verification of the news-fetching pipeline in
`src/sentiment_pipeline/fetch_news.py`.

The Python module is embedded shallowly:

* free text is modelled as `String` / `List Char`; Python's dynamic
  argument of `compute_relevance` is the inductive `PyVal`
  (a string, or any non-string value);
* `str.lower` is modelled per character by `Char.toLower` and the
  tokenizer `re.findall(r'\b\w+\b', text)` by `tokenize`, which cuts the
  character list into maximal runs of word characters;
* the regex `KEYWORD_PATTERN.search` (an escaped, case-insensitive
  alternation of the keywords) is modelled by `KEYWORD_PATTERN_search`:
  some keyword, lower-cased, is an infix of the lower-cased text;
* a call of `fetch_news_from_gdelt` is a pure function of the outcome of
  the single HTTP request it performs, modelled by `FetchResponse`;
* the day loop of `main` is a fold over one `DayInput` (the two fetch
  outcomes of that calendar day) per day of the fixed range; the dates
  themselves only feed the HTTP query parameters, so they do not appear;
* `pandas.drop_duplicates(subset=["title","url"])` (keep the first) is
  `dropDuplicates`, `sort_values(by="date")` is a merge sort by the raw
  date string with missing dates last (pandas puts NaN last), and
  `sorted(key=relevance_score, reverse=True)` is the stable
  `List.mergeSort` by descending score.
-/

/-- A Python value passed to `compute_relevance`: a string, or any
non-string value (`None`, an int, a bool, ...). -/
inductive PyVal where
  | pstr (s : String)
  | pnone
  | pint (n : Int)
  | pbool (b : Bool)
deriving DecidableEq

/-- Per-character lower-casing, the model of `str.lower` on the
character list of a string. -/
def lowerChars (s : List Char) : List Char := s.map Char.toLower

/-- A word character of the regex class `\w` (letters, digits, underscore). -/
def isWordChar (c : Char) : Bool := c.isAlphanum || c = '_'

/-- Accumulating tokenizer: `acc` holds the (reversed) current run of
word characters. -/
def tokenizeAux : List Char → List Char → List (List Char)
  | [], acc => if acc.isEmpty then [] else [acc.reverse]
  | c :: cs, acc =>
    if isWordChar c then tokenizeAux cs (c :: acc)
    else if acc.isEmpty then tokenizeAux cs acc
    else acc.reverse :: tokenizeAux cs []

/-- Model of `re.findall(r'\b\w+\b', text)`: the maximal runs of word
characters of `text`, in order. -/
def tokenize (s : List Char) : List (List Char) := tokenizeAux s []

/-- The fixed keyword list `FINANCE_KEYWORDS` of the source. -/
def FINANCE_KEYWORDS : List String := [
  "hdfc", "hdfc bank", "hdfc securities", "hdfc credit card",
  "bank", "banking", "deposits", "lending", "nbfc", "branch", "retail banking",
  "wholesale banking", "credit", "loan", "interest rate", "fixed deposit",
  "stock", "share", "equity", "nse", "bse", "ipo", "dividend", "valuation",
  "market cap", "investor", "investment", "mutual fund", "portfolio",
  "profit", "revenue", "earnings", "net income", "quarterly results",
  "q1 results", "q2 results", "q3 results", "q4 results", "financial year",
  "rbi", "reserve bank of india", "monetary policy", "repo rate",
  "liquidity", "npas", "non performing asset", "asset quality",
  "crr", "slr", "basel norms", "regulatory", "merger", "acquisition"]

/-- The number of occurrences of the lower-cased keyword `k` among the
word-boundary tokens of the lower-cased text `t`; this is
`counts.get(k.lower(), 0)` where `counts = Counter(words)`. -/
def keywordCount (t : String) (k : String) : Nat :=
  (tokenize (lowerChars t.toList)).count (lowerChars k.toList)

/-- Model of `compute_relevance(text)`: `0` for a non-string input, else
the sum over the keyword list of the token frequency of the lower-cased
keyword.  The Python result is an `int`, so the model returns `Int`. -/
def compute_relevance : PyVal → Int
  | .pstr text => (FINANCE_KEYWORDS.map fun k => (keywordCount text k : Int)).sum
  | _ => 0

/-- Model of `KEYWORD_PATTERN.search(t) is not None`: the pattern is the
case-insensitive alternation of the escaped keywords, so it matches
exactly when some keyword, lower-cased, occurs as an infix of the
lower-cased text. -/
def KEYWORD_PATTERN_search (t : String) : Bool :=
  FINANCE_KEYWORDS.any fun k =>
    decide (lowerChars k.toList <:+: lowerChars t.toList)

/-- A raw element of the JSON `articles` array.  `a.get("title", "")`
defaults a missing title to `""`, so the title is a plain `String`; the
other fields use `a.get(key)`, which yields `None` when absent, so they
are `Option String`. -/
structure RawArticle where
  title : String
  seendate : Option String
  url : Option String
  domain : Option String
  language : Option String
  sourcecountry : Option String
deriving DecidableEq

/-- A normalized article record as built by `fetch_news_from_gdelt`;
`category` is absent until the day loop of `main` sets it. -/
structure Article where
  date : Option String
  title : String
  url : Option String
  domain : Option String
  language : Option String
  source_country : Option String
  relevance_score : Int
  category : Option String
deriving DecidableEq

/-- The outcome of the one HTTP request a fetch call performs:
an exception raised by the transport or by JSON parsing, or a response
with its status code and, for a parsed body, the `articles` array when
the field is present (`none` models a body without an `articles` key). -/
inductive FetchResponse where
  | exception
  | http (status : Nat) (articles : Option (List RawArticle))
deriving DecidableEq

/-- The per-article body of the loop in `fetch_news_from_gdelt`:
skip when the title is empty or the keyword pattern does not match,
skip when the relevance score is `0`, otherwise emit the record. -/
def processArticle (a : RawArticle) : Option Article :=
  if a.title = "" ∨ ¬ KEYWORD_PATTERN_search a.title then none
  else if compute_relevance (.pstr a.title) = 0 then none
  else some
    { date := a.seendate
      title := a.title
      url := a.url
      domain := a.domain
      language := a.language
      source_country := a.sourcecountry
      relevance_score := compute_relevance (.pstr a.title)
      category := none }

/-- Model of `fetch_news_from_gdelt` as a function of the outcome of its
HTTP request: an exception or a non-200 status or a missing `articles`
field yields `[]`; otherwise each raw article is filtered and scored. -/
def fetch_news_from_gdelt : FetchResponse → List Article
  | .exception => []
  | .http status articles =>
    if status ≠ 200 then []
    else
      match articles with
      | none => []
      | some arts => arts.filterMap processArticle

/-- The two fetch outcomes of one calendar day of the loop in `main`:
the company-query call and the sector-query call. -/
structure DayInput where
  company : FetchResponse
  sector : FetchResponse
deriving DecidableEq

/-- `c["category"] = cat` of the day loop. -/
def setCategory (cat : String) (a : Article) : Article :=
  { a with category := some cat }

/-- Model of `sorted(articles, key=lambda x: x["relevance_score"],
reverse=True)`: Python's sort is stable, also with `reverse=True`, so
this is the stable merge sort by descending score. -/
def sortByScoreDesc (l : List Article) : List Article :=
  l.mergeSort fun a b => decide (b.relevance_score ≤ a.relevance_score)

/-- The company records one day appends: tag, sort descending by score,
keep the first 15. -/
def dayCompany (d : DayInput) : List Article :=
  (sortByScoreDesc ((fetch_news_from_gdelt d.company).map
    (setCategory "company"))).take 15

/-- The sector records one day appends: tag, sort descending by score,
keep the first 30. -/
def daySector (d : DayInput) : List Article :=
  (sortByScoreDesc ((fetch_news_from_gdelt d.sector).map
    (setCategory "sector"))).take 30

/-- `all_articles.extend(company_articles + sector_articles)` of one
iteration. -/
def dayRecords (d : DayInput) : List Article := dayCompany d ++ daySector d

/-- The accumulator `all_articles` after the whole date range: the loop
runs once per calendar day, so the run is a function of the list of
per-day fetch outcomes. -/
def all_articles (days : List DayInput) : List Article :=
  (days.map dayRecords).flatten

/-- The running total `total_company`. -/
def total_company (days : List DayInput) : Nat :=
  (days.map fun d => (dayCompany d).length).sum

/-- The running total `total_sector`. -/
def total_sector (days : List DayInput) : Nat :=
  (days.map fun d => (daySector d).length).sum

/-- The deduplication key of `drop_duplicates(subset=["title", "url"])`.
`pandas` treats two missing values as equal in `subset`, matching the
equality of `Option String`. -/
def dedupKey (a : Article) : String × Option String := (a.title, a.url)

/-- Keep-first deduplication: `seen` holds the keys already kept. -/
def dropDupAux (seen : List (String × Option String)) :
    List Article → List Article
  | [] => []
  | a :: rest =>
    if dedupKey a ∈ seen then dropDupAux seen rest
    else a :: dropDupAux (dedupKey a :: seen) rest

/-- Model of `df.drop_duplicates(subset=["title", "url"])` with the
default `keep="first"`: of each (title, url) class the first record in
accumulation order survives, in its original position. -/
def dropDuplicates (l : List Article) : List Article := dropDupAux [] l

/-- The order `sort_values(by="date")` sorts by: the raw date strings
compare as plain strings, and a missing date sorts after every string
(pandas places NaN last). -/
def dateLe : Option String → Option String → Bool
  | some a, some b => decide (a ≤ b)
  | none, some _ => false
  | _, none => true

/-- Model of `df.sort_values(by="date")`: a sort by `dateLe` on the raw
date field. -/
def sortByDate (l : List Article) : List Article :=
  l.mergeSort fun a b => dateLe a.date b.date

/-- The observable outcome of a run of `main`: the rows written to the
output file (`none` when no file is written), whether the terminal
"No articles fetched" message was printed, and the two reported
category totals. -/
structure RunResult where
  written : Option (List Article)
  noArticlesMessage : Bool
  total_company : Nat
  total_sector : Nat
deriving DecidableEq

/-- Model of the source's `main` (the name `main` is reserved in Lean):
accumulate the per-day records; if nothing was accumulated report
"No articles fetched" and write nothing; otherwise deduplicate on
(title, url), sort by the raw date string and write. -/
def mainRun (days : List DayInput) : RunResult :=
  if (all_articles days).isEmpty then
    { written := none
      noArticlesMessage := true
      total_company := total_company days
      total_sector := total_sector days }
  else
    { written := some (sortByDate (dropDuplicates (all_articles days)))
      noArticlesMessage := false
      total_company := total_company days
      total_sector := total_sector days }

/-- A concrete raw article used by the witness scenarios. -/
def raw1 : RawArticle :=
  { title := "bank"
    seendate := some "20240101T000000Z"
    url := some "https://example.com/a"
    domain := some "example.com"
    language := some "English"
    sourcecountry := some "India" }

/-- The article record `fetch_news_from_gdelt` builds from `raw1`,
after the day loop tagged it `company`. -/
def art1 : Article :=
  { date := some "20240101T000000Z"
    title := "bank"
    url := some "https://example.com/a"
    domain := some "example.com"
    language := some "English"
    source_country := some "India"
    relevance_score := 1
    category := some "company" }

/-- A concrete day: the company fetch returns one raw article, the
sector fetch returns an empty `articles` array. -/
def day1 : DayInput :=
  { company := .http 200 (some [raw1])
    sector := .http 200 (some []) }

example : compute_relevance (.pstr "bank") = 1 := by decide
example : compute_relevance (.pstr "fixed deposit") = 0 := by decide
example : KEYWORD_PATTERN_search "fixed deposit" = true := by decide
example : KEYWORD_PATTERN_search "Local weather turns cold" = false := by decide
example : compute_relevance (.pstr "HDFC Bank reports record profit") = 3 := by
  decide

theorem dayCompany_day1 : dayCompany day1 = [art1] := by
  have h : (fetch_news_from_gdelt day1.company).map (setCategory "company")
      = [art1] := by decide
  rw [dayCompany, h, sortByScoreDesc, List.mergeSort_singleton]
  rfl

theorem daySector_day1 : daySector day1 = [] := by
  have h : (fetch_news_from_gdelt day1.sector).map (setCategory "sector")
      = [] := by decide
  rw [daySector, h, sortByScoreDesc, List.mergeSort_nil]
  rfl

theorem all_articles_day1 : all_articles [day1] = [art1] := by
  rw [all_articles]
  show dayRecords day1 ++ [] = [art1]
  rw [dayRecords, dayCompany_day1, daySector_day1]
  rfl

theorem mainRun_day1 : mainRun [day1] =
    { written := some [art1]
      noArticlesMessage := false
      total_company := 1
      total_sector := 0 } := by
  rw [mainRun]
  simp only [all_articles_day1]
  have htc : total_company [day1] = 1 := by
    rw [total_company]
    show (dayCompany day1).length + 0 = 1
    rw [dayCompany_day1]
    rfl
  have hts : total_sector [day1] = 0 := by
    rw [total_sector]
    show (daySector day1).length + 0 = 0
    rw [daySector_day1]
    rfl
  have hdd : dropDuplicates [art1] = [art1] := by decide
  rw [hdd, sortByDate, List.mergeSort_singleton, htc, hts]
  rfl

example : fetch_news_from_gdelt (.http 500 none) = [] := by decide

/-- The deduplicated list is a sublist of the input. -/
theorem dropDupAux_sublist (l : List Article) :
    ∀ seen, (dropDupAux seen l).Sublist l := by
  induction l with
  | nil => intro seen; exact List.Sublist.refl _
  | cons a rest ih =>
    intro seen
    rw [dropDupAux]
    split
    · exact (ih seen).cons a
    · exact (ih _).cons₂ a

/-- No key of the deduplicated list was already in `seen`. -/
theorem dropDupAux_not_seen (l : List Article) :
    ∀ seen, ∀ a ∈ dropDupAux seen l, dedupKey a ∉ seen := by
  induction l with
  | nil => intro seen a ha; exact absurd ha (List.not_mem_nil a)
  | cons b rest ih =>
    intro seen a ha
    rw [dropDupAux] at ha
    split at ha
    · exact ih seen a ha
    next hseen =>
      rcases List.mem_cons.mp ha with rfl | ha
      · exact hseen
      · have h := ih _ a ha
        intro hmem
        exact h (List.mem_cons_of_mem _ hmem)

/-- All keys of the deduplicated list are pairwise distinct. -/
theorem dropDupAux_pairwise (l : List Article) :
    ∀ seen, (dropDupAux seen l).Pairwise
      (fun a b => dedupKey a ≠ dedupKey b) := by
  induction l with
  | nil => intro seen; exact List.Pairwise.nil
  | cons b rest ih =>
    intro seen
    rw [dropDupAux]
    split
    · exact ih seen
    · refine List.Pairwise.cons ?_ (ih _)
      intro a ha hkey
      exact dropDupAux_not_seen rest _ a ha
        (hkey ▸ List.mem_cons_self _ _)

/-- Every survivor of deduplication is the first record with its key. -/
theorem dropDupAux_find (l : List Article) :
    ∀ seen, ∀ a ∈ dropDupAux seen l,
      l.find? (fun b => dedupKey b == dedupKey a) = some a := by
  induction l with
  | nil => intro seen a ha; exact absurd ha (List.not_mem_nil a)
  | cons b rest ih =>
    intro seen a ha
    rw [dropDupAux] at ha
    split at ha
    next hseen =>
      have hna := dropDupAux_not_seen rest seen a ha
      have hne : (dedupKey b == dedupKey a) = false :=
        beq_eq_false_iff_ne.mpr (fun he => hna (he ▸ hseen))
      rw [List.find?_cons_of_neg _ (by rw [hne]; exact Bool.false_ne_true)]
      exact ih seen a ha
    next hseen =>
      rcases List.mem_cons.mp ha with rfl | ha
      · exact List.find?_cons_of_pos _ (beq_self_eq_true _)
      · have hna := dropDupAux_not_seen rest _ a ha
        have hne : (dedupKey b == dedupKey a) = false :=
          beq_eq_false_iff_ne.mpr
            (fun he => hna (he ▸ List.mem_cons_self _ _))
        rw [List.find?_cons_of_neg _ (by rw [hne]; exact Bool.false_ne_true)]
        exact ih _ a ha

/-- Every key of the input whose key is not in `seen` is represented in
the deduplicated list. -/
theorem dropDupAux_covers (l : List Article) :
    ∀ seen, ∀ a ∈ l, dedupKey a ∉ seen →
      ∃ b ∈ dropDupAux seen l, dedupKey b = dedupKey a := by
  induction l with
  | nil => intro seen a ha; exact absurd ha (List.not_mem_nil a)
  | cons b rest ih =>
    intro seen a ha hns
    rw [dropDupAux]
    split
    next hseen =>
      rcases List.mem_cons.mp ha with rfl | ha
      · exact absurd hseen hns
      · exact ih seen a ha hns
    next hseen =>
      rcases List.mem_cons.mp ha with rfl | ha
      · exact ⟨a, List.mem_cons_self _ _, rfl⟩
      · by_cases hk : dedupKey a = dedupKey b
        · exact ⟨b, List.mem_cons_self _ _, hk.symm⟩
        · rcases ih (dedupKey b :: seen) a ha (by
            intro hmem
            rcases List.mem_cons.mp hmem with he | he
            · exact hk he
            · exact hns he) with ⟨c, hc, hkey⟩
          exact ⟨c, List.mem_cons_of_mem _ hc, hkey⟩

/-- A stable merge sort does not move elements that are mutually `le`:
filtering the sorted list on a class of mutually-`le` elements gives the
same list as filtering the input. -/
theorem filter_mergeSort_eq {α : Type} (le : α → α → Bool)
    (htrans : ∀ a b c, le a b = true → le b c = true → le a c = true)
    (htotal : ∀ a b, (le a b || le b a) = true)
    (p : α → Bool) (hp : ∀ a b, p a = true → p b = true → le a b = true)
    (l : List α) :
    (l.mergeSort le).filter p = l.filter p := by
  have hself : (l.filter p).filter p = l.filter p :=
    List.filter_eq_self.mpr (fun a ha => List.of_mem_filter ha)
  have hc : (l.filter p).Pairwise (fun a b => le a b = true) :=
    List.pairwise_of_forall_mem_list (fun a ha b hb =>
      hp a b (List.of_mem_filter ha) (List.of_mem_filter hb))
  have hsub : (l.filter p).Sublist (l.mergeSort le) :=
    List.sublist_mergeSort htrans htotal hc (List.filter_sublist l)
  have hsub2 : (l.filter p).Sublist ((l.mergeSort le).filter p) := by
    have h := hsub.filter p
    rwa [hself] at h
  have hlen : (l.filter p).length = ((l.mergeSort le).filter p).length :=
    (((List.mergeSort_perm l le).filter p).length_eq).symm
  exact (hsub2.eq_of_length hlen).symm

/-- Every character of every token is a word character, provided the
characters accumulated so far are. -/
theorem tokenizeAux_wordChar (s : List Char) :
    ∀ acc : List Char, (∀ c ∈ acc, isWordChar c = true) →
      ∀ tok ∈ tokenizeAux s acc, ∀ c ∈ tok, isWordChar c = true := by
  induction s with
  | nil =>
    intro acc hacc tok htok c hc
    rw [tokenizeAux] at htok
    split at htok
    · exact absurd htok (List.not_mem_nil _)
    · rcases List.mem_singleton.mp htok with rfl
      exact hacc c (List.mem_reverse.mp hc)
  | cons a as ih =>
    intro acc hacc tok htok c hc
    rw [tokenizeAux] at htok
    split at htok
    next hword =>
      refine ih (a :: acc) ?_ tok htok c hc
      intro x hx
      rcases List.mem_cons.mp hx with rfl | hx
      · exact hword
      · exact hacc x hx
    next hword =>
      split at htok
      · exact ih acc hacc tok htok c hc
      · rcases List.mem_cons.mp htok with rfl | htok
        · exact hacc c (List.mem_reverse.mp hc)
        · exact ih [] (fun x hx => absurd hx (List.not_mem_nil x)) tok htok c hc

/-- Every token of `tokenize s` consists of word characters only. -/
theorem tokenize_wordChar (s : List Char) :
    ∀ tok ∈ tokenize s, ∀ c ∈ tok, isWordChar c = true :=
  tokenizeAux_wordChar s [] (fun x hx => absurd hx (List.not_mem_nil x))

/-- Every token produced with accumulator `acc` is an infix of the
already-consumed input followed by the rest. -/
theorem tokenizeAux_substring (s : List Char) :
    ∀ acc : List Char, ∀ tok ∈ tokenizeAux s acc,
      tok <:+: (acc.reverse ++ s) := by
  induction s with
  | nil =>
    intro acc tok htok
    rw [tokenizeAux] at htok
    split at htok
    · exact absurd htok (List.not_mem_nil _)
    · rcases List.mem_singleton.mp htok with rfl
      exact ⟨[], [], by simp⟩
  | cons a as ih =>
    intro acc tok htok
    rw [tokenizeAux] at htok
    split at htok
    next hword =>
      have h := ih (a :: acc) tok htok
      rwa [List.reverse_cons, List.append_assoc, List.singleton_append] at h
    next hword =>
      split at htok
      next hempty =>
        rcases List.isEmpty_iff.mp hempty with rfl
        exact List.infix_cons (ih [] tok htok)
      · rcases List.mem_cons.mp htok with rfl | htok
        · exact ⟨[], a :: as, by simp⟩
        · have h := ih [] tok htok
          rw [List.reverse_nil, List.nil_append] at h
          refine List.IsInfix.trans h ⟨acc.reverse ++ [a], [], by simp⟩

/-- Every token of `tokenize s` is an infix of `s`. -/
theorem tokenize_substring (s : List Char) :
    ∀ tok ∈ tokenize s, tok <:+: s :=
  tokenizeAux_substring s []

/-- The relevance score of a string is the sum of the per-keyword token
frequencies, by definition. -/
theorem compute_relevance_pstr (t : String) :
    compute_relevance (.pstr t)
      = (FINANCE_KEYWORDS.map fun k => (keywordCount t k : Int)).sum := rfl

/-- The relevance score is non-negative: it is a sum of counts. -/
theorem compute_relevance_nonneg (v : PyVal) : 0 ≤ compute_relevance v := by
  cases v with
  | pstr t =>
    rw [compute_relevance_pstr]
    refine List.sum_nonneg ?_
    intro x hx
    rcases List.mem_map.mp hx with ⟨k, _, rfl⟩
    exact Int.natCast_nonneg _
  | pnone => exact le_refl 0
  | pint n => exact le_refl 0
  | pbool b => exact le_refl 0

/-- A keyword whose lower-cased form contains a space never occurs among
the tokens, so its frequency is `0`. -/
theorem keywordCount_eq_zero_of_space (t k : String)
    (hk : ' ' ∈ k.toList) : keywordCount t k = 0 := by
  rw [keywordCount, List.count_eq_zero]
  intro hmem
  have hspace : ' ' ∈ lowerChars k.toList := by
    refine List.mem_map.mpr ⟨' ', hk, ?_⟩
    decide
  have := tokenize_wordChar (lowerChars t.toList) _ hmem ' ' hspace
  exact absurd this (by decide)

/-- If some keyword has positive token frequency in `t`, the keyword
pattern matches `t`: a token equal to the lower-cased keyword is an
infix of the lower-cased text. -/
theorem pattern_matches_of_relevance_pos (t : String)
    (h : 1 ≤ compute_relevance (.pstr t)) :
    KEYWORD_PATTERN_search t = true := by
  by_contra hfalse
  have hall : ∀ k ∈ FINANCE_KEYWORDS,
      ¬ lowerChars k.toList <:+: lowerChars t.toList := by
    intro k hkmem hinf
    exact hfalse (List.any_eq_true.mpr
      ⟨k, hkmem, decide_eq_true hinf⟩)
  have hzero : compute_relevance (.pstr t) = 0 := by
    rw [compute_relevance_pstr]
    refine List.sum_eq_zero ?_
    intro x hx
    rcases List.mem_map.mp hx with ⟨k, hkmem, rfl⟩
    have hcount : keywordCount t k = 0 := by
      rw [keywordCount, List.count_eq_zero]
      intro hmem
      exact hall k hkmem
        (tokenize_substring (lowerChars t.toList) _ hmem)
    rw [hcount]
    rfl
  omega

/-- Transitivity of the descending-score comparison. -/
theorem scoreLe_trans : ∀ a b c : Article,
    decide (b.relevance_score ≤ a.relevance_score) = true →
    decide (c.relevance_score ≤ b.relevance_score) = true →
    decide (c.relevance_score ≤ a.relevance_score) = true := by
  intro a b c h1 h2
  rw [decide_eq_true_eq] at h1 h2 ⊢
  omega

/-- Totality of the descending-score comparison. -/
theorem scoreLe_total : ∀ a b : Article,
    (decide (b.relevance_score ≤ a.relevance_score) ||
      decide (a.relevance_score ≤ b.relevance_score)) = true := by
  intro a b
  rcases le_total b.relevance_score a.relevance_score with h | h
  · rw [decide_eq_true h, Bool.true_or]
  · rw [decide_eq_true h, Bool.or_true]

/-- Transitivity of the date comparison with missing dates last. -/
theorem dateLe_trans : ∀ x y z : Option String,
    dateLe x y = true → dateLe y z = true → dateLe x z = true := by
  intro x y z h1 h2
  cases x with
  | none =>
    cases y with
    | none =>
      cases z with
      | none => rfl
      | some c => exact Bool.noConfusion h2
    | some b => exact Bool.noConfusion h1
  | some a =>
    cases z with
    | none => rfl
    | some c =>
      cases y with
      | none => exact Bool.noConfusion h2
      | some b =>
        exact decide_eq_true
          (le_trans (of_decide_eq_true h1) (of_decide_eq_true h2))

/-- Totality of the date comparison with missing dates last. -/
theorem dateLe_total : ∀ x y : Option String,
    (dateLe x y || dateLe y x) = true := by
  intro x y
  cases x with
  | none =>
    cases y with
    | none => rfl
    | some b => rfl
  | some a =>
    cases y with
    | none => rfl
    | some b =>
      show (decide (a ≤ b) || decide (b ≤ a)) = true
      rcases le_total a b with h | h
      · rw [decide_eq_true h, Bool.true_or]
      · rw [decide_eq_true h, Bool.or_true]

/-- A record emitted by the per-article step has score at least `1`:
the step drops score-0 records and the score is a non-negative sum. -/
theorem processArticle_score (a : RawArticle) (art : Article)
    (h : processArticle a = some art) : 1 ≤ art.relevance_score := by
  rw [processArticle] at h
  split at h
  · exact Option.noConfusion h
  · split at h
    · exact Option.noConfusion h
    next hne =>
      have hn := compute_relevance_nonneg (.pstr a.title)
      have h2 := congrArg Article.relevance_score (Option.some.inj h)
      simp only at h2
      omega

/-- Every record a fetch call retains has score at least `1`. -/
theorem fetch_score (r : FetchResponse) :
    ∀ a ∈ fetch_news_from_gdelt r, 1 ≤ a.relevance_score := by
  intro a ha
  cases r with
  | exception => exact absurd ha (List.not_mem_nil a)
  | http status articles =>
    simp only [fetch_news_from_gdelt] at ha
    split at ha
    · exact absurd ha (List.not_mem_nil a)
    · cases articles with
      | none => exact absurd ha (List.not_mem_nil a)
      | some arts =>
        rcases List.mem_filterMap.mp ha with ⟨raw, _, hp⟩
        exact processArticle_score raw a hp

/-- Tagging a record does not change its relevance score. -/
theorem setCategory_score (cat : String) (a : Article) :
    (setCategory cat a).relevance_score = a.relevance_score := rfl

/-- A record of the kept company list comes from the company fetch,
tagged `company`. -/
theorem mem_dayCompany (d : DayInput) (a : Article)
    (ha : a ∈ dayCompany d) :
    ∃ b ∈ fetch_news_from_gdelt d.company, setCategory "company" b = a := by
  rw [dayCompany, sortByScoreDesc] at ha
  have h1 := List.take_subset _ _ ha
  have h2 := (List.mergeSort_perm _ _).mem_iff.mp h1
  exact List.mem_map.mp h2

/-- A record of the kept sector list comes from the sector fetch,
tagged `sector`. -/
theorem mem_daySector (d : DayInput) (a : Article)
    (ha : a ∈ daySector d) :
    ∃ b ∈ fetch_news_from_gdelt d.sector, setCategory "sector" b = a := by
  rw [daySector, sortByScoreDesc] at ha
  have h1 := List.take_subset _ _ ha
  have h2 := (List.mergeSort_perm _ _).mem_iff.mp h1
  exact List.mem_map.mp h2

/-- Every record a day appends has score at least `1`. -/
theorem dayRecords_score (d : DayInput) :
    ∀ a ∈ dayRecords d, 1 ≤ a.relevance_score := by
  intro a ha
  rcases List.mem_append.mp ha with h | h
  · rcases mem_dayCompany d a h with ⟨b, hb, rfl⟩
    rw [setCategory_score]
    exact fetch_score d.company b hb
  · rcases mem_daySector d a h with ⟨b, hb, rfl⟩
    rw [setCategory_score]
    exact fetch_score d.sector b hb

/-- Every accumulated record has score at least `1`. -/
theorem all_articles_score (days : List DayInput) :
    ∀ a ∈ all_articles days, 1 ≤ a.relevance_score := by
  intro a ha
  rw [all_articles] at ha
  rcases List.mem_flatten.mp ha with ⟨l, hl, hal⟩
  rcases List.mem_map.mp hl with ⟨d, _, rfl⟩
  exact dayRecords_score d a hal

/-- When `mainRun` writes a file, the rows are the deduplicated and
date-sorted accumulator, and the accumulator was non-empty. -/
theorem mainRun_written (days : List DayInput) (out : List Article)
    (h : (mainRun days).written = some out) :
    out = sortByDate (dropDuplicates (all_articles days)) ∧
      all_articles days ≠ [] := by
  rw [mainRun] at h
  split at h
  · exact Option.noConfusion h
  next hne =>
    refine ⟨(Option.some.inj h).symm, ?_⟩
    intro hnil
    exact hne (List.isEmpty_iff.mpr hnil)

/-- Membership in the written rows is membership in the deduplicated
accumulator. -/
theorem mem_written (days : List DayInput) (out : List Article)
    (h : (mainRun days).written = some out) :
    ∀ a ∈ out, a ∈ dropDuplicates (all_articles days) := by
  intro a ha
  rcases mainRun_written days out h with ⟨rfl, _⟩
  rw [sortByDate] at ha
  exact (List.mergeSort_perm _ _).mem_iff.mp ha

/-- The sorted list is in descending score order. -/
theorem sortByScoreDesc_sorted (l : List Article) :
    (sortByScoreDesc l).Pairwise
      (fun a b => b.relevance_score ≤ a.relevance_score) := by
  rw [sortByScoreDesc]
  exact (List.sorted_mergeSort scoreLe_trans scoreLe_total l).imp
    (fun hab => of_decide_eq_true hab)

/-- Every record kept by the truncation scores at least as high as every
record the truncation drops. -/
theorem sortByScoreDesc_take_drop (l : List Article) (n : Nat) :
    ∀ a ∈ (sortByScoreDesc l).take n, ∀ b ∈ (sortByScoreDesc l).drop n,
      b.relevance_score ≤ a.relevance_score := by
  have hs := sortByScoreDesc_sorted l
  rw [← List.take_append_drop n (sortByScoreDesc l)] at hs
  exact (List.pairwise_append.mp hs).2.2

/-- Stability of the descending sort: within one score class the sorted
list preserves the input order. -/
theorem sortByScoreDesc_stable (l : List Article) (s : Int) :
    (sortByScoreDesc l).filter (fun a => a.relevance_score == s)
      = l.filter (fun a => a.relevance_score == s) := by
  rw [sortByScoreDesc]
  refine filter_mergeSort_eq _ scoreLe_trans scoreLe_total _ ?_ l
  intro a b ha hb
  rw [beq_iff_eq] at ha hb
  rw [decide_eq_true_eq, ha, hb]

/-- Every kept company record is tagged `company`. -/
theorem dayCompany_category (d : DayInput) :
    ∀ a ∈ dayCompany d, a.category = some "company" := by
  intro a ha
  rcases mem_dayCompany d a ha with ⟨b, _, rfl⟩
  rfl

/-- Every kept sector record is tagged `sector`. -/
theorem daySector_category (d : DayInput) :
    ∀ a ∈ daySector d, a.category = some "sector" := by
  intro a ha
  rcases mem_daySector d a ha with ⟨b, _, rfl⟩
  rfl

/-- Sums over a keyword list drop the keywords whose value is zero. -/
theorem sum_map_filter_of_zero (p : String → Bool) (f : String → Int)
    (l : List String) (h : ∀ a ∈ l, p a = false → f a = 0) :
    (l.map f).sum = ((l.filter p).map f).sum := by
  induction l with
  | nil => rfl
  | cons a as ih =>
    have ih2 := ih (fun x hx hpx => h x (List.mem_cons_of_mem a hx) hpx)
    cases hpa : p a with
    | true =>
      rw [List.map_cons, List.sum_cons, List.filter_cons_of_pos hpa,
        List.map_cons, List.sum_cons, ih2]
    | false =>
      rw [List.map_cons, List.sum_cons, h a (List.mem_cons_self a as) hpa,
        List.filter_cons_of_neg (by rw [hpa]; exact Bool.false_ne_true),
        ih2, zero_add]

/-- C8: the Relevance Scorer is total and non-negative: every input
yields an integer score at least `0`, and every non-string (or absent)
input yields exactly `0`. -/
theorem C8_scorer_total_nonneg :
    (∀ v : PyVal, 0 ≤ compute_relevance v) ∧
      (∀ v : PyVal, (∀ s, v ≠ PyVal.pstr s) → compute_relevance v = 0) := by
  refine ⟨compute_relevance_nonneg, ?_⟩
  intro v hv
  cases v with
  | pstr s => exact absurd rfl (hv s)
  | pnone => rfl
  | pint n => rfl
  | pbool b => rfl

theorem C8_witness :
    0 ≤ compute_relevance (.pstr "bank") ∧ compute_relevance .pnone = 0 :=
  ⟨C8_scorer_total_nonneg.1 (.pstr "bank"),
    C8_scorer_total_nonneg.2 .pnone (fun _ h => PyVal.noConfusion h)⟩

/-- C6: the Keyword Filter is strictly more permissive than requiring a
nonzero score: a text with score at least `1` always matches the keyword
pattern, while the text "fixed deposit" matches the pattern (it contains
the multi-word keyword) yet scores `0`. -/
theorem C6_filter_more_permissive :
    (∀ t : String, 1 ≤ compute_relevance (.pstr t) →
      KEYWORD_PATTERN_search t = true) ∧
      KEYWORD_PATTERN_search "fixed deposit" = true ∧
      compute_relevance (.pstr "fixed deposit") = 0 :=
  ⟨pattern_matches_of_relevance_pos, by decide, by decide⟩

theorem C6_witness :
    1 ≤ compute_relevance (.pstr "bank") ∧
      KEYWORD_PATTERN_search "bank" = true :=
  ⟨by decide, C6_filter_more_permissive.1 "bank" (by decide)⟩

/-- C7: only single-word keywords contribute to the score: for every
text the score equals the sum of token frequencies over the space-free
keywords alone, every keyword containing a space contributes `0`, and
for this keyword list space-free coincides with whitespace-free. -/
theorem C7_single_word_only (t : String) :
    compute_relevance (.pstr t) =
      ((FINANCE_KEYWORDS.filter fun k => !(decide (' ' ∈ k.toList))).map
        fun k => (keywordCount t k : Int)).sum ∧
      (∀ k ∈ FINANCE_KEYWORDS, ' ' ∈ k.toList → keywordCount t k = 0) ∧
      (FINANCE_KEYWORDS.filter fun k => !(decide (' ' ∈ k.toList)))
        = FINANCE_KEYWORDS.filter
            fun k => !(k.toList.any fun c => c.isWhitespace) := by
  refine ⟨?_, fun k _ hk => keywordCount_eq_zero_of_space t k hk, by decide⟩
  rw [compute_relevance_pstr]
  refine sum_map_filter_of_zero _ _ _ ?_
  intro k _ hpk
  have hsp : ' ' ∈ k.toList := by simpa using hpk
  rw [keywordCount_eq_zero_of_space t k hsp]
  rfl

theorem C7_witness :
    compute_relevance (.pstr "HDFC Bank announces hdfc bank results") =
      ((FINANCE_KEYWORDS.filter fun k => !(decide (' ' ∈ k.toList))).map
        fun k =>
          (keywordCount "HDFC Bank announces hdfc bank results" k : Int)).sum
    ∧ keywordCount "HDFC Bank announces hdfc bank results" "hdfc bank" = 0 :=
  ⟨(C7_single_word_only _).1,
    (C7_single_word_only _).2.1 "hdfc bank" (by decide) (by decide)⟩

/-- C2: every record retained by a fetch call, every accumulated record,
and every record of the written output has relevance score at least `1`;
no later stage changes the score, so the bound survives to the file. -/
theorem C2_min_relevance :
    (∀ r : FetchResponse, ∀ a ∈ fetch_news_from_gdelt r,
      1 ≤ a.relevance_score) ∧
    (∀ days : List DayInput, ∀ a ∈ all_articles days,
      1 ≤ a.relevance_score) ∧
    (∀ days : List DayInput, ∀ out : List Article,
      (mainRun days).written = some out →
        ∀ a ∈ out, 1 ≤ a.relevance_score) := by
  refine ⟨fetch_score, all_articles_score, ?_⟩
  intro days out h a ha
  exact all_articles_score days a
    ((dropDupAux_sublist _ []).subset (mem_written days out h a ha))

theorem C2_witness : 1 ≤ art1.relevance_score :=
  C2_min_relevance.2.2 [day1] [art1] (by rw [mainRun_day1]) art1
    (List.mem_singleton.mpr rfl)

/-- C4: the fetcher never raises: an exception yields `[]`, a non-200
status yields `[]`, a 200 body without an `articles` field yields `[]`,
and a day whose two calls yield `[]` contributes nothing while the
remaining days are still processed. -/
theorem C4_fetch_never_raises :
    fetch_news_from_gdelt .exception = [] ∧
    (∀ (status : Nat) (arts : Option (List RawArticle)), status ≠ 200 →
      fetch_news_from_gdelt (.http status arts) = []) ∧
    fetch_news_from_gdelt (.http 200 none) = [] ∧
    (∀ (d : DayInput) (rest : List DayInput),
      fetch_news_from_gdelt d.company = [] →
      fetch_news_from_gdelt d.sector = [] →
      all_articles (d :: rest) = all_articles rest) := by
  refine ⟨rfl, ?_, rfl, ?_⟩
  · intro status arts h
    simp only [fetch_news_from_gdelt, if_pos h]
  · intro d rest hc hs
    have hday : dayRecords d = [] := by
      rw [dayRecords, dayCompany, daySector, hc, hs]
      simp only [List.map_nil, sortByScoreDesc, List.mergeSort_nil,
        List.take_nil, List.append_nil]
    rw [all_articles, List.map_cons, List.flatten_cons, hday,
      List.nil_append]
    rfl

theorem C4_witness :
    (500 : Nat) ≠ 200 ∧
      fetch_news_from_gdelt (.http 500 none) = [] ∧
      all_articles
          ({ company := .exception, sector := .http 500 none } :: [day1])
        = all_articles [day1] :=
  ⟨by decide, C4_fetch_never_raises.2.1 500 none (by decide),
    C4_fetch_never_raises.2.2.2 _ [day1] rfl
      (C4_fetch_never_raises.2.1 500 none (by decide))⟩

/-- C9: an empty accumulator after the full range yields no write and
the "No articles fetched" message, and a write happens only when the
accumulator is non-empty. -/
theorem C9_empty_accumulator :
    (∀ days : List DayInput, all_articles days = [] →
      (mainRun days).written = none ∧
        (mainRun days).noArticlesMessage = true) ∧
    (∀ days : List DayInput, ∀ out : List Article,
      (mainRun days).written = some out → all_articles days ≠ []) := by
  constructor
  · intro days h
    rw [mainRun, if_pos (List.isEmpty_iff.mpr h)]
    exact ⟨rfl, rfl⟩
  · intro days out h
    exact (mainRun_written days out h).2

theorem C9_witness :
    (mainRun []).written = none ∧ (mainRun []).noArticlesMessage = true :=
  C9_empty_accumulator.1 [] rfl

/-- C10: the reported category totals count the records before
deduplication: their sum is exactly the length of the accumulator, hence
at least the number of written rows. -/
theorem C10_totals_before_dedup (days : List DayInput) :
    total_company days + total_sector days = (all_articles days).length ∧
    (∀ out : List Article, (mainRun days).written = some out →
      out.length ≤ total_company days + total_sector days) := by
  have hlen : total_company days + total_sector days
      = (all_articles days).length := by
    induction days with
    | nil => rfl
    | cons d rest ih =>
      have hrec : (all_articles rest).length
          = total_company rest + total_sector rest := ih.symm
      rw [all_articles, List.map_cons, List.flatten_cons,
        List.length_append, total_company, total_sector, List.map_cons,
        List.sum_cons, List.map_cons, List.sum_cons, dayRecords,
        List.length_append]
      have e : ((rest.map dayRecords).flatten).length
          = (all_articles rest).length := rfl
      rw [e, hrec, total_company, total_sector]
      omega
  refine ⟨hlen, ?_⟩
  intro out h
  rcases mainRun_written days out h with ⟨rfl, _⟩
  rw [hlen, sortByDate, List.length_mergeSort]
  exact (dropDupAux_sublist _ []).length_le

theorem C10_witness :
    total_company [day1] + total_sector [day1]
        = (all_articles [day1]).length ∧
      ([art1] : List Article).length
        ≤ total_company [day1] + total_sector [day1] :=
  ⟨(C10_totals_before_dedup [day1]).1,
    (C10_totals_before_dedup [day1]).2 [art1] (by rw [mainRun_day1])⟩

/-- C1: the written rows carry pairwise-distinct (title, url) keys; each
written row is the first accumulated record with its key, even when a
later duplicate has a different relevance score; and every accumulated
key is represented by some written row. -/
theorem C1_dedup_keeps_first (days : List DayInput) (out : List Article)
    (h : (mainRun days).written = some out) :
    out.Pairwise (fun a b => dedupKey a ≠ dedupKey b) ∧
    (∀ a ∈ out, (all_articles days).find?
      (fun b => dedupKey b == dedupKey a) = some a) ∧
    (∀ a ∈ all_articles days, ∃ b ∈ out, dedupKey b = dedupKey a) := by
  rcases mainRun_written days out h with ⟨rfl, _⟩
  have hperm : (sortByDate (dropDuplicates (all_articles days))).Perm
      (dropDuplicates (all_articles days)) := by
    rw [sortByDate]
    exact List.mergeSort_perm _ _
  refine ⟨?_, ?_, ?_⟩
  · exact (hperm.pairwise_iff
      (fun hxy he => hxy he.symm)).mpr (dropDupAux_pairwise _ [])
  · intro a ha
    exact dropDupAux_find _ [] a (hperm.mem_iff.mp ha)
  · intro a ha
    rcases dropDupAux_covers (all_articles days) [] a ha
      (List.not_mem_nil _) with ⟨b, hb, hkey⟩
    exact ⟨b, hperm.mem_iff.mpr hb, hkey⟩

theorem C1_witness :
    ([art1] : List Article).Pairwise
        (fun a b => dedupKey a ≠ dedupKey b) ∧
      (∀ a ∈ [art1], (all_articles [day1]).find?
        (fun b => dedupKey b == dedupKey a) = some a) ∧
      (∀ a ∈ all_articles [day1], ∃ b ∈ [art1], dedupKey b = dedupKey a) :=
  C1_dedup_keeps_first [day1] [art1] (by rw [mainRun_day1])

/-- C5: the written rows are non-decreasing under `dateLe` on the raw
date field (plain string comparison, missing dates last); in particular
any two rows whose dates are strings appear in non-decreasing string
order. -/
theorem C5_rows_date_sorted (days : List DayInput) (out : List Article)
    (h : (mainRun days).written = some out) :
    out.Pairwise (fun a b => dateLe a.date b.date = true) ∧
    out.Pairwise (fun a b => ∀ da db,
      a.date = some da → b.date = some db → da ≤ db) := by
  rcases mainRun_written days out h with ⟨rfl, _⟩
  have hs : (sortByDate (dropDuplicates (all_articles days))).Pairwise
      (fun a b => dateLe a.date b.date = true) := by
    rw [sortByDate]
    exact List.sorted_mergeSort
      (fun a b c => dateLe_trans a.date b.date c.date)
      (fun a b => dateLe_total a.date b.date) _
  refine ⟨hs, hs.imp ?_⟩
  intro a b hab da db hda hdb
  rw [hda, hdb] at hab
  exact of_decide_eq_true hab

theorem C5_witness :
    ([art1] : List Article).Pairwise
        (fun a b => dateLe a.date b.date = true) ∧
      ([art1] : List Article).Pairwise (fun a b => ∀ da db,
        a.date = some da → b.date = some db → da ≤ db) :=
  C5_rows_date_sorted [day1] [art1] (by rw [mainRun_day1])

/-- C3: per iteration the appended records are exactly the kept company
list followed by the kept sector list; those lists have at most 15 and
30 records, all correctly tagged; each is in descending relevance-score
order; every kept record scores at least as high as every record its
truncation dropped; and within one score class the sorted order is the
order the fetcher returned (stability). -/
theorem C3_day_truncation (d : DayInput) :
    dayRecords d = dayCompany d ++ daySector d ∧
    (dayCompany d).length ≤ 15 ∧
    (daySector d).length ≤ 30 ∧
    (∀ a ∈ dayCompany d, a.category = some "company") ∧
    (∀ a ∈ daySector d, a.category = some "sector") ∧
    (dayCompany d).Pairwise
      (fun a b => b.relevance_score ≤ a.relevance_score) ∧
    (daySector d).Pairwise
      (fun a b => b.relevance_score ≤ a.relevance_score) ∧
    (∀ a ∈ dayCompany d,
      ∀ b ∈ (sortByScoreDesc ((fetch_news_from_gdelt d.company).map
        (setCategory "company"))).drop 15,
        b.relevance_score ≤ a.relevance_score) ∧
    (∀ a ∈ daySector d,
      ∀ b ∈ (sortByScoreDesc ((fetch_news_from_gdelt d.sector).map
        (setCategory "sector"))).drop 30,
        b.relevance_score ≤ a.relevance_score) ∧
    (∀ s : Int,
      (sortByScoreDesc ((fetch_news_from_gdelt d.company).map
          (setCategory "company"))).filter
            (fun a => a.relevance_score == s)
        = ((fetch_news_from_gdelt d.company).map
            (setCategory "company")).filter
            (fun a => a.relevance_score == s)) ∧
    (∀ s : Int,
      (sortByScoreDesc ((fetch_news_from_gdelt d.sector).map
          (setCategory "sector"))).filter
            (fun a => a.relevance_score == s)
        = ((fetch_news_from_gdelt d.sector).map
            (setCategory "sector")).filter
            (fun a => a.relevance_score == s)) := by
  refine ⟨rfl, List.length_take_le 15 _, List.length_take_le 30 _,
    dayCompany_category d, daySector_category d, ?_, ?_, ?_, ?_, ?_, ?_⟩
  · exact List.Pairwise.sublist (List.take_sublist 15 _)
      (sortByScoreDesc_sorted _)
  · exact List.Pairwise.sublist (List.take_sublist 30 _)
      (sortByScoreDesc_sorted _)
  · exact sortByScoreDesc_take_drop _ 15
  · exact sortByScoreDesc_take_drop _ 30
  · exact sortByScoreDesc_stable _
  · exact sortByScoreDesc_stable _

theorem C3_witness :
    dayRecords day1 = dayCompany day1 ++ daySector day1 ∧
      (dayCompany day1).length ≤ 15 ∧
      art1.category = some "company" :=
  ⟨(C3_day_truncation day1).1, (C3_day_truncation day1).2.1,
    (C3_day_truncation day1).2.2.2.1 art1
      (by rw [dayCompany_day1]; exact List.mem_singleton.mpr rfl)⟩
